import Mathlib

/-!
# Constraint representation of clingcon (`libclingcon/clingcon/constraints.hh`)

A shallow embedding of the three immutable constraint classes `SumConstraint`,
`MinimizeConstraint` and `DistinctConstraint`, together with their factory
functions, constructors and accessors, followed by theorems about them.

Conventions of the embedding:

* `val_t` and `lit_t` are signed fixed-width integers; a value is an `Int` and
  conversions between the widths are written out with `wrapSigned`.
* `var_t` is an identifier, a `Nat`.
* `CoVarVec` (`std::vector<std::pair<val_t, var_t>>`) is a `List`.
* The trailing array `elements_[]` is a `List`; a pointer into it is an offset.
* `std::sort` is a parameter (`StdSort`): any function that meets the contract
  of the C++ standard.  Nothing proved below depends on how ties are ordered.
* `operator new` always returns a block of the requested size (memory
  exhaustion is not modelled); the requested size is recorded in `Allocation`.
-/

namespace Clingcon

/-! ## Primitive types -/

/-- A coefficient/variable pair, `std::pair<val_t, var_t>`. -/
abbrev CoVar := Int × Nat

/-- A sequence of coefficient/variable pairs, `CoVarVec`. -/
abbrev CoVarVec := List CoVar

/-- What `constraints.hh` takes from `clingcon/solver.hh` and from the compiler:
the widths of the typedefs `val_t`, `lit_t` and `size_t`, the `sizeof` of the two
headers and of one pair, and the constant `TRUE_LIT`.  The member initialiser
`adjust_{adjust}` of `MinimizeConstraint` is a brace initialisation of a `lit_t`
from a `val_t`, which is well-formed only when it is not narrowing (the
initialiser of `size_` next to it needs its `static_cast` for that reason):
`val_fits_lit`.  `std::abs` is taken at the width of `val_t`. -/
structure Target where
  valBits : Nat
  litBits : Nat
  sizeBits : Nat
  sizeofSum : Nat
  sizeofMinimize : Nat
  sizeofPair : Nat
  TRUE_LIT : Int
  valBits_pos : 0 < valBits
  val_fits_lit : valBits ≤ litBits

/-- The usual 64-bit target: 32-bit `val_t` and `lit_t`, 64-bit `size_t`,
a 24-byte `SumConstraint` header, a 16-byte `MinimizeConstraint` header and
8-byte pairs. -/
def lp64 : Target where
  valBits := 32
  litBits := 32
  sizeBits := 64
  sizeofSum := 24
  sizeofMinimize := 16
  sizeofPair := 8
  TRUE_LIT := 1
  valBits_pos := by decide
  val_fits_lit := by decide

/-- Two's-complement reduction of an integer to a signed type of `bits` bits. -/
def wrapSigned (bits : Nat) (x : Int) : Int :=
  (x + 2 ^ (bits - 1)) % 2 ^ bits - 2 ^ (bits - 1)

/-- The values of a signed type of `bits` bits. -/
def InRange (bits : Nat) (x : Int) : Prop :=
  -(2 ^ (bits - 1) : Int) ≤ x ∧ x < 2 ^ (bits - 1)

instance (bits : Nat) (x : Int) : Decidable (InRange bits x) := by
  unfold InRange; infer_instance

/-- The most negative value of a signed type of `bits` bits. -/
def minValue (bits : Nat) : Int := -(2 ^ (bits - 1))

/-- `std::abs` on a signed type of `bits` bits: the negation of a negative
argument is reduced to the type again, so the most negative value is returned
unchanged. -/
def stdAbs (bits : Nat) (x : Int) : Int :=
  wrapSigned bits (if x < 0 then -x else x)

/-- The comparator handed to `std::sort` by both constructors:
`[](auto a, auto b) { return std::abs(a.first) > std::abs(b.first); }`. -/
def sortComparator (bits : Nat) (a b : CoVar) : Bool :=
  decide (stdAbs bits a.1 > stdAbs bits b.1)

/-! ## `std::sort` -/

/-- The requirement of the C++ standard on a comparator: a strict weak
ordering (irreflexive, transitive, and with a transitive incomparability). -/
def StrictWeakOrder (less : CoVar → CoVar → Bool) : Prop :=
  (∀ a, less a a = false) ∧
  (∀ a b c, less a b = true → less b c = true → less a c = true) ∧
  (∀ a b c, less a b = false → less b a = false → less b c = false → less c b = false →
    less a c = false ∧ less c a = false)

/-- The sequence is sorted with respect to `less` in the sense of the C++
standard: no later element is `less` than an earlier one. -/
def SortedBy (less : CoVar → CoVar → Bool) (xs : List CoVar) : Prop :=
  xs.Pairwise (fun a b => less b a = false)

/-- A `std::sort`: for a strict weak ordering it rearranges the range into a
sorted one.  The order of equivalent elements is left open. -/
structure StdSort where
  run : (CoVar → CoVar → Bool) → List CoVar → List CoVar
  perm : ∀ less xs, StrictWeakOrder less → (run less xs).Perm xs
  sorted : ∀ less xs, StrictWeakOrder less → SortedBy less (run less xs)

/-- `std::sort(first + 0, first + k, less)` on the storage `xs`: the first `k`
cells are sorted, the cells behind them are left alone. -/
def sortRange (S : StdSort) (less : CoVar → CoVar → Bool) (k : Nat) (xs : List CoVar) :
    List CoVar :=
  S.run less (xs.take k) ++ xs.drop k

/-- Insertion of one element into a sorted sequence, behind the elements that
are `less` than it. -/
def insertSorted (less : CoVar → CoVar → Bool) (x : CoVar) : List CoVar → List CoVar
  | [] => [x]
  | y :: ys => if less y x then y :: insertSorted less x ys else x :: y :: ys

/-- Insertion sort, one executable `std::sort`. -/
def insertionSort (less : CoVar → CoVar → Bool) : List CoVar → List CoVar
  | [] => []
  | x :: xs => insertSorted less x (insertionSort less xs)

/-- Insertion sort as a `std::sort`: it meets the contract for every strict
weak ordering. -/
def insertionStdSort : StdSort where
  run := insertionSort
  perm := by
    intro less xs _
    have ins : ∀ (x : CoVar) (l : List CoVar), (insertSorted less x l).Perm (x :: l) := by
      intro x l
      induction l with
      | nil => exact List.Perm.refl _
      | cons y ys ih =>
        unfold insertSorted
        split
        · exact (List.Perm.cons y ih).trans (List.Perm.swap x y ys)
        · exact List.Perm.refl _
    induction xs with
    | nil => exact List.Perm.refl _
    | cons x xs ih =>
      unfold insertionSort
      exact (ins x _).trans (List.Perm.cons x ih)
  sorted := by
    intro less xs h
    have ins : ∀ (x : CoVar) (l : List CoVar), (insertSorted less x l).Perm (x :: l) := by
      intro x l
      induction l with
      | nil => exact List.Perm.refl _
      | cons y ys ih =>
        unfold insertSorted
        split
        · exact (List.Perm.cons y ih).trans (List.Perm.swap x y ys)
        · exact List.Perm.refl _
    have asymm : ∀ a b, less a b = true → less b a = false := by
      intro a b hab
      cases hba : less b a with
      | false => rfl
      | true =>
        have haa := h.2.1 a b a hab hba
        rw [h.1 a] at haa
        exact haa.symm
    have negTrans : ∀ a b c, less a b = false → less b c = false → less a c = false := by
      intro a b c hab hbc
      cases hac : less a c with
      | false => rfl
      | true =>
        cases hba : less b a with
        | true =>
          have := h.2.1 b a c hba hac
          rw [hbc] at this
          exact this.symm
        | false =>
          cases hcb : less c b with
          | true =>
            have := h.2.1 a c b hac hcb
            rw [hab] at this
            exact this.symm
          | false =>
            have := (h.2.2 a b c hab hba hbc hcb).1
            rw [hac] at this
            exact this
    have insS : ∀ (x : CoVar) (l : List CoVar), SortedBy less l →
        SortedBy less (insertSorted less x l) := by
      intro x l
      induction l with
      | nil => intro _; simp [insertSorted, SortedBy]
      | cons y ys ih =>
        intro hl
        unfold SortedBy at hl ih ⊢
        rw [List.pairwise_cons] at hl
        unfold insertSorted
        split
        · rename_i hyx
          rw [List.pairwise_cons]
          refine ⟨?_, ih hl.2⟩
          intro z hz
          have hz2 := (ins x ys).subset hz
          rcases List.mem_cons.mp hz2 with rfl | hz3
          · exact asymm _ _ hyx
          · exact hl.1 z hz3
        · rename_i hyx
          have hyx2 : less y x = false := by simpa using hyx
          rw [List.pairwise_cons]
          refine ⟨?_, List.pairwise_cons.mpr hl⟩
          intro z hz
          rcases List.mem_cons.mp hz with rfl | hz3
          · exact hyx2
          · exact negTrans _ _ _ (hl.1 z hz3) hyx2
    induction xs with
    | nil => simp [insertionSort, SortedBy]
    | cons x xs ih =>
      unfold insertionSort
      exact insS x _ ih

/-! ## Allocation -/

/-- The result of `new (operator new(size)) T(...)`: a block of `bytes` bytes
with the object constructed at its start. -/
structure Allocation (α : Type) where
  bytes : Nat
  object : α

/-! ## `SumConstraint` -/

/-- Class to capture sum constraints of form `a_0*x_0 + ... + a_n * x_n <= rhs`. -/
structure SumConstraint where
  lit_ : Int
  rhs_ : Int
  size_ : Nat
  elements_ : List CoVar

/-- The private constructor `SumConstraint(lit, rhs, elems, sort)`: the header
fields are initialised, `elems` is copied into the trailing array, and the
range `[elements_, elements_ + size_)` is sorted when `sort` is set. -/
def SumConstraint.ctor (S : StdSort) (p : Target) (lit rhs : Int)
    (elems : CoVarVec) (sort : Bool) : SumConstraint :=
  let size := elems.length
  let copied := elems
  { lit_ := lit
    rhs_ := rhs
    size_ := size
    elements_ := if sort then sortRange S (sortComparator p.valBits) size copied else copied }

/-- `SumConstraint::create`: the size of the block is computed in `size_t`
arithmetic and the constraint is constructed in the block. -/
def SumConstraint.create (S : StdSort) (p : Target) (lit rhs : Int)
    (elems : CoVarVec) (sort : Bool) : Allocation SumConstraint :=
  let size := (p.sizeofSum + elems.length * p.sizeofPair) % 2 ^ p.sizeBits
  { bytes := size, object := SumConstraint.ctor S p lit rhs elems sort }

/-- `SumConstraint::literal`. -/
def SumConstraint.literal (c : SumConstraint) : Int := c.lit_

/-- `SumConstraint::rhs`. -/
def SumConstraint.rhs (c : SumConstraint) : Int := c.rhs_

/-- `SumConstraint::size`. -/
def SumConstraint.size (c : SumConstraint) : Nat := c.size_

/-- `SumConstraint::operator[]`: the cell `elements_[i]`, `none` when the cell
lies outside the trailing array. -/
def SumConstraint.subscript (c : SumConstraint) (i : Nat) : Option CoVar := c.elements_[i]?

/-- `SumConstraint::begin`: the offset of `elements_`. -/
def SumConstraint.begin (_c : SumConstraint) : Nat := 0

/-- `SumConstraint::end`: the offset of `elements_ + size_`. -/
def SumConstraint.end_ (c : SumConstraint) : Nat := 0 + c.size_

/-- The cells visited by `for (auto it = c.begin(); it != c.end(); ++it)`. -/
def SumConstraint.iterate (c : SumConstraint) : List CoVar :=
  (c.elements_.drop c.begin).take (c.end_ - c.begin)

/-! ## `MinimizeConstraint` -/

/-- Class to capture minimize constraints of form
`a_0*x_0 + ... + a_n * x_n + adjust`.  The field `adjust_` is declared `lit_t`,
`size_` is declared `uint32_t`. -/
structure MinimizeConstraint where
  adjust_ : Int
  size_ : Nat
  elements_ : List CoVar

/-- The private constructor `MinimizeConstraint(adjust, elems, sort)`:
`adjust_{adjust}` stores the adjustment in a `lit_t`,
`size_{static_cast<uint32_t>(elems.size())}` reduces the count to 32 bits, all of
`elems` is copied into the trailing array, and the range
`[elements_, elements_ + size_)` is sorted when `sort` is set. -/
def MinimizeConstraint.ctor (S : StdSort) (p : Target) (adjust : Int)
    (elems : CoVarVec) (sort : Bool) : MinimizeConstraint :=
  let size := elems.length % 2 ^ 32
  let copied := elems
  { adjust_ := wrapSigned p.litBits adjust
    size_ := size
    elements_ := if sort then sortRange S (sortComparator p.valBits) size copied else copied }

/-- `MinimizeConstraint::create`. -/
def MinimizeConstraint.create (S : StdSort) (p : Target) (adjust : Int)
    (elems : CoVarVec) (sort : Bool) : Allocation MinimizeConstraint :=
  let size := (p.sizeofMinimize + elems.length * p.sizeofPair) % 2 ^ p.sizeBits
  { bytes := size, object := MinimizeConstraint.ctor S p adjust elems sort }

/-- `MinimizeConstraint::literal`: `return TRUE_LIT;`. -/
def MinimizeConstraint.literal (p : Target) (_c : MinimizeConstraint) : Int := p.TRUE_LIT

/-- `MinimizeConstraint::adjust`: `return adjust_;`, a `lit_t` returned as `val_t`. -/
def MinimizeConstraint.adjust (p : Target) (c : MinimizeConstraint) : Int :=
  wrapSigned p.valBits c.adjust_

/-- `MinimizeConstraint::size`: the 32-bit field widened to `size_t`. -/
def MinimizeConstraint.size (c : MinimizeConstraint) : Nat := c.size_

/-- `MinimizeConstraint::operator[]`. -/
def MinimizeConstraint.subscript (c : MinimizeConstraint) (i : Nat) : Option CoVar :=
  c.elements_[i]?

/-- `MinimizeConstraint::begin`. -/
def MinimizeConstraint.begin (_c : MinimizeConstraint) : Nat := 0

/-- `MinimizeConstraint::end`. -/
def MinimizeConstraint.end_ (c : MinimizeConstraint) : Nat := 0 + c.size_

/-- The cells visited by iterating from `begin()` to `end()`. -/
def MinimizeConstraint.iterate (c : MinimizeConstraint) : List CoVar :=
  (c.elements_.drop c.begin).take (c.end_ - c.begin)

/-! ## `DistinctConstraint` -/

/-- `DistinctConstraint::Term`, `std::pair<CoVarVec, val_t>`. -/
abbrev Term := CoVarVec × Int

/-- Class to capture distinct constraints. -/
structure DistinctConstraint where
  lit_ : Int
  elements_ : List Term

/-- The constructor `DistinctConstraint(lit, elements)`: the term vector is
moved into the object. -/
def DistinctConstraint.ctor (lit : Int) (elements : List Term) :
    DistinctConstraint :=
  { lit_ := lit, elements_ := elements }

/-- `DistinctConstraint::literal`. -/
def DistinctConstraint.literal (d : DistinctConstraint) : Int := d.lit_

/-- `DistinctConstraint::size`. -/
def DistinctConstraint.size (d : DistinctConstraint) : Nat := d.elements_.length

/-- `DistinctConstraint::operator[]`. -/
def DistinctConstraint.subscript (d : DistinctConstraint) (i : Nat) : Option Term :=
  d.elements_[i]?

/-- `DistinctConstraint::begin`: the offset of `elements_.begin()`. -/
def DistinctConstraint.begin (_d : DistinctConstraint) : Nat := 0

/-- `DistinctConstraint::end`: the offset of `elements_.end()`. -/
def DistinctConstraint.end_ (d : DistinctConstraint) : Nat := d.elements_.length

/-- The terms visited by iterating from `begin()` to `end()`. -/
def DistinctConstraint.iterate (d : DistinctConstraint) : List Term :=
  (d.elements_.drop d.begin).take (d.end_ - d.begin)

/-! ## Meaning of a constraint -/

/-- The sum `a_0*x_0 + ... + a_n*x_n` of the class comments under an assignment
`value` of integers to the variables. -/
def weightedSum (value : Nat → Int) (xs : List CoVar) : Int :=
  (xs.map (fun e => e.1 * value e.2)).sum

/-! ## Layout of the allocated block -/

/-- The number of whole pairs that fit into a block of `bytes` bytes behind a
header of `header` bytes: the capacity of the trailing array `elements_[]`. -/
def trailingCapacity (bytes header pair : Nat) : Nat :=
  (bytes - header) / pair

/-! ## Propagation state of a sum constraint -/

/-- Modelled from the spec: the domain store that the propagation state
consumes, "current lower/upper bound of a variable".  The store belongs to the
solver, whose code is not in `constraints.hh`. -/
abbrev Bounds := Nat → Int × Int

/-- Modelled from the spec: the share of one term in "the minimum achievable
sum (using each term's most favorable bound)", the lower bound of the variable
under a positive coefficient and the upper bound under a negative one.  The
body of the propagation is not in `constraints.hh`. -/
def termMinimum (bounds : Bounds) (e : CoVar) : Int :=
  if 0 < e.1 then e.1 * (bounds e.2).1
  else if e.1 < 0 then e.1 * (bounds e.2).2
  else 0

/-- Modelled from the spec: "the minimum achievable sum" of a sequence of terms
under the current bounds.  The body of the propagation is not in
`constraints.hh`. -/
def minimumSum (bounds : Bounds) (xs : List CoVar) : Int :=
  (xs.map (termMinimum bounds)).sum

/-- Modelled from the spec: the outcome of one propagation of a sum constraint,
either "a conflict whose reason is the activation literal plus the current
bounds of the terms that forced the minimum above `rhs`" or the bounds after
the proposed tightenings.  The type is not declared in `constraints.hh`. -/
inductive Propagation where
  | conflict (lit : Int) (reason : List (Nat × Int))
  | tightened (bounds : Bounds)

/-- Modelled from the spec: whether a propagation reported a conflict. -/
def Propagation.isConflict : Propagation → Bool
  | .conflict _ _ => true
  | .tightened _ => false

/-- Modelled from the spec: the bounds of a variable after a propagation
without conflict. -/
def Propagation.boundsOf : Propagation → Nat → Option (Int × Int)
  | .conflict _ _, _ => none
  | .tightened b, x => some (b x)

/-- Modelled from the spec: for one term, "the tightest new bound its variable
may take without letting the minimum achievable sum exceed `rhs`", where
`slack` is `rhs` minus the minimum achievable sum under the bounds `start` the
propagation began with; the store `current` keeps a bound that is tighter
already.  The body of the propagation is not in `constraints.hh`. -/
def tightenTerm (slack : Int) (start : Bounds) (current : Bounds) (e : CoVar) : Bounds :=
  fun x =>
    if x = e.2 then
      if 0 < e.1 then ((current x).1, min (current x).2 ((start x).1 + slack / e.1))
      else if e.1 < 0 then (max (current x).1 ((start x).2 - slack / (-e.1)), (current x).2)
      else current x
    else current x

/-- Modelled from the spec: the per-thread propagation state of a sum
constraint, bound to the constraint it was created from.  The class is not
declared in `constraints.hh`. -/
structure SumConstraintState where
  constraint : SumConstraint

/-- Modelled from the spec: `SumConstraint::create_state` "returns a new,
independently owned per-thread propagation state bound to this definition".
The function is declared in `constraints.hh` and defined elsewhere. -/
def SumConstraint.create_state (c : SumConstraint) : SumConstraintState :=
  { constraint := c }

/-- Modelled from the spec: propagation of a sum constraint whose activation
literal is true.  "If the minimum achievable sum already exceeds `rhs`, report a
conflict ...  Otherwise, for each term, derive the tightest new bound ... and
propose that tightening to the domain store".  The function is not in
`constraints.hh`. -/
def SumConstraintState.propagate (st : SumConstraintState) (bounds : Bounds) : Propagation :=
  let terms := st.constraint.iterate
  let minimum := minimumSum bounds terms
  if st.constraint.rhs < minimum then
    Propagation.conflict st.constraint.literal
      ((terms.filter (fun e => e.1 ≠ 0)).map
        (fun e => (e.2, if 0 < e.1 then (bounds e.2).1 else (bounds e.2).2)))
  else
    Propagation.tightened
      (terms.foldl (tightenTerm (st.constraint.rhs - minimum) bounds) bounds)

/-! ## The comparator is a strict weak ordering -/

theorem sortComparator_eq_true_iff (bits : Nat) (a b : CoVar) :
    sortComparator bits a b = true ↔ stdAbs bits b.1 < stdAbs bits a.1 := by
  simp [sortComparator]

theorem sortComparator_eq_false_iff (bits : Nat) (a b : CoVar) :
    sortComparator bits a b = false ↔ stdAbs bits a.1 ≤ stdAbs bits b.1 := by
  simp [sortComparator]

theorem sortComparator_strictWeak (bits : Nat) : StrictWeakOrder (sortComparator bits) := by
  refine ⟨?_, ?_, ?_⟩
  · intro a
    simp [sortComparator_eq_false_iff]
  · intro a b c hab hbc
    rw [sortComparator_eq_true_iff] at hab hbc ⊢
    omega
  · intro a b c h1 h2 h3 h4
    simp only [sortComparator_eq_false_iff] at h1 h2 h3 h4 ⊢
    omega

theorem StrictWeakOrder.asymm {less : CoVar → CoVar → Bool} (h : StrictWeakOrder less)
    {a b : CoVar} (hab : less a b = true) : less b a = false := by
  cases hba : less b a with
  | false => rfl
  | true =>
    have haa := h.2.1 a b a hab hba
    rw [h.1 a] at haa
    exact haa.symm

theorem StrictWeakOrder.negTrans {less : CoVar → CoVar → Bool} (h : StrictWeakOrder less)
    {a b c : CoVar} (hab : less a b = false) (hbc : less b c = false) :
    less a c = false := by
  cases hac : less a c with
  | false => rfl
  | true =>
    cases hba : less b a with
    | true =>
      have := h.2.1 b a c hba hac
      rw [hbc] at this
      exact this.symm
    | false =>
      cases hcb : less c b with
      | true =>
        have := h.2.1 a c b hac hcb
        rw [hab] at this
        exact this.symm
      | false =>
        have := (h.2.2 a b c hab hba hbc hcb).1
        rw [hac] at this
        exact this

/-! ## Facts about `sortRange` and the accessors -/

theorem sortRange_perm (S : StdSort) {less : CoVar → CoVar → Bool} (h : StrictWeakOrder less)
    (k : Nat) (xs : List CoVar) : (sortRange S less k xs).Perm xs := by
  unfold sortRange
  have h1 := (S.perm less (xs.take k) h).append_right (xs.drop k)
  rw [List.take_append_drop] at h1
  exact h1

theorem sortRange_take (S : StdSort) {less : CoVar → CoVar → Bool} (h : StrictWeakOrder less)
    (k : Nat) (xs : List CoVar) :
    (sortRange S less k xs).take k = S.run less (xs.take k) := by
  unfold sortRange
  have hlen : (S.run less (xs.take k)).length = min k xs.length := by
    rw [(S.perm less (xs.take k) h).length_eq, List.length_take]
  rcases Nat.le_total k xs.length with hk | hk
  · rw [List.take_append_eq_append_take, hlen, Nat.min_eq_left hk, Nat.sub_self]
    rw [List.take_of_length_le (by omega)]
    simp
  · rw [List.drop_of_length_le hk, List.append_nil]
    exact List.take_of_length_le (by omega)

theorem sortRange_whole (S : StdSort) (less : CoVar → CoVar → Bool) (xs : List CoVar) :
    sortRange S less xs.length xs = S.run less xs := by
  simp [sortRange]

theorem sum_iterate_eq (c : SumConstraint) :
    c.iterate = c.elements_.take c.size_ := by
  simp [SumConstraint.iterate, SumConstraint.begin, SumConstraint.end_]

theorem minimize_iterate_eq (c : MinimizeConstraint) :
    c.iterate = c.elements_.take c.size_ := by
  simp [MinimizeConstraint.iterate, MinimizeConstraint.begin, MinimizeConstraint.end_]

theorem map_some_eq_range_map_getElem? {α : Type} (l : List α) :
    l.map some = (List.range l.length).map (fun i => l[i]?) := by
  apply List.ext_getElem?
  intro i
  rcases Nat.lt_or_ge i l.length with h | h
  · simp [h]
  · have h1 : l[i]? = none := List.getElem?_eq_none h
    have h2 : (List.range l.length)[i]? = none :=
      List.getElem?_eq_none (by rw [List.length_range]; exact h)
    simp [h1, h2]

theorem weightedSum_perm (value : Nat → Int) {xs ys : List CoVar} (h : xs.Perm ys) :
    weightedSum value xs = weightedSum value ys := by
  unfold weightedSum
  exact (h.map _).sum_eq

theorem sum_ctor_elements_perm (S : StdSort) (p : Target) (lit rhs : Int)
    (elems : CoVarVec) (sort : Bool) :
    (SumConstraint.ctor S p lit rhs elems sort).elements_.Perm elems := by
  unfold SumConstraint.ctor
  cases sort with
  | false => exact List.Perm.refl _
  | true => exact sortRange_perm S (sortComparator_strictWeak _) _ _

theorem sum_ctor_iterate (S : StdSort) (p : Target) (lit rhs : Int)
    (elems : CoVarVec) (sort : Bool) :
    (SumConstraint.ctor S p lit rhs elems sort).iterate =
      (SumConstraint.ctor S p lit rhs elems sort).elements_ := by
  rw [sum_iterate_eq]
  apply List.take_of_length_le
  rw [(sum_ctor_elements_perm S p lit rhs elems sort).length_eq]
  exact Nat.le_refl _

theorem sum_ctor_iterate_eq (S : StdSort) (p : Target) (lit rhs : Int)
    (elems : CoVarVec) (sort : Bool) :
    (SumConstraint.ctor S p lit rhs elems sort).iterate =
      if sort then S.run (sortComparator p.valBits) elems else elems := by
  rw [sum_ctor_iterate]
  unfold SumConstraint.ctor
  cases sort with
  | false => rfl
  | true => exact sortRange_whole S _ elems

theorem minimize_ctor_iterate_eq (S : StdSort) (p : Target) (adjust : Int)
    (elems : CoVarVec) (sort : Bool) :
    (MinimizeConstraint.ctor S p adjust elems sort).iterate =
      if sort then S.run (sortComparator p.valBits) (elems.take (elems.length % 2 ^ 32))
      else elems.take (elems.length % 2 ^ 32) := by
  rw [minimize_iterate_eq]
  unfold MinimizeConstraint.ctor
  cases sort with
  | false => rfl
  | true => exact sortRange_take S (sortComparator_strictWeak _) _ elems

theorem StdSort.run_nil (S : StdSort) {less : CoVar → CoVar → Bool} (h : StrictWeakOrder less) :
    S.run less [] = [] :=
  List.Perm.eq_nil (S.perm less [] h)

theorem StdSort.run_pair (S : StdSort) {less : CoVar → CoVar → Bool} (h : StrictWeakOrder less)
    {a b : CoVar} (hba : less b a = true) : S.run less [a, b] = [b, a] := by
  have hp := S.perm less [a, b] h
  have hs := S.sorted less [a, b] h
  have hne : a ≠ b := by
    intro hab
    rw [hab, h.1 b] at hba
    exact Bool.false_ne_true hba
  have hlen := hp.length_eq
  generalize S.run less [a, b] = r at hp hs hlen
  match r, hlen with
  | [x, y], _ =>
    have hx : x = a ∨ x = b := by simpa using hp.subset (List.mem_cons_self x [y])
    have hy : y = a ∨ y = b := by simpa using hp.subset (List.mem_cons_of_mem x (List.mem_singleton_self y))
    have ha : a = x ∨ a = y := by simpa using hp.symm.subset (List.mem_cons_self a [b])
    have hb : b = x ∨ b = y := by simpa using hp.symm.subset (List.mem_cons_of_mem a (List.mem_singleton_self b))
    have hyx : less y x = false := by
      unfold SortedBy at hs
      simpa using hs
    rcases hx with rfl | rfl <;> rcases hy with rfl | rfl
    · rcases hb with hb | hb <;> exact absurd hb.symm hne
    · rw [hba] at hyx
      exact absurd hyx (by decide)
    · rfl
    · rcases ha with ha | ha <;> exact absurd ha hne

theorem minimize_ctor_elements_perm (S : StdSort) (p : Target) (adjust : Int)
    (elems : CoVarVec) (sort : Bool) :
    (MinimizeConstraint.ctor S p adjust elems sort).elements_.Perm elems := by
  unfold MinimizeConstraint.ctor
  cases sort with
  | false => exact List.Perm.refl _
  | true => exact sortRange_perm S (sortComparator_strictWeak _) _ _

theorem wrapSigned_of_inRange {bits : Nat} (hb : 0 < bits) {x : Int} (h : InRange bits x) :
    wrapSigned bits x = x := by
  unfold wrapSigned
  unfold InRange at h
  have hpow : (2 : Int) ^ bits = 2 * 2 ^ (bits - 1) := by
    obtain ⟨k, rfl⟩ : ∃ k, bits = k + 1 := ⟨bits - 1, by omega⟩
    rw [Nat.add_sub_cancel, pow_succ]
    ring
  rw [Int.emod_eq_of_lt (by omega) (by omega)]
  omega

theorem InRange.mono {a b : Nat} (hab : a ≤ b) {x : Int} (h : InRange a x) : InRange b x := by
  unfold InRange at h ⊢
  have hpow : (2 : Int) ^ (a - 1) ≤ 2 ^ (b - 1) :=
    pow_le_pow_right₀ (by norm_num) (by omega)
  omega

theorem minimize_adjust_ctor (S : StdSort) (p : Target) (adjust : Int)
    (elems : CoVarVec) (sort : Bool) (h : InRange p.valBits adjust) :
    MinimizeConstraint.adjust p (MinimizeConstraint.ctor S p adjust elems sort) = adjust := by
  show wrapSigned p.valBits (wrapSigned p.litBits adjust) = adjust
  rw [wrapSigned_of_inRange (Nat.lt_of_lt_of_le p.valBits_pos p.val_fits_lit)
    (h.mono p.val_fits_lit)]
  exact wrapSigned_of_inRange p.valBits_pos h

theorem stdAbs_eq_abs {bits : Nat} (hb : 0 < bits) {x : Int} (h : InRange bits x)
    (hmin : x ≠ minValue bits) : stdAbs bits x = |x| := by
  unfold stdAbs
  unfold InRange at h
  unfold minValue at hmin
  have habs : (if x < 0 then -x else x) = |x| := by
    split
    · rw [abs_of_neg (by assumption)]
    · rw [abs_of_nonneg (by omega)]
  rw [habs]
  apply wrapSigned_of_inRange hb
  unfold InRange
  rcases abs_cases x with ⟨h1, _⟩ | ⟨h1, _⟩ <;> rw [h1] <;> omega

theorem stdAbs_minValue {bits : Nat} (hb : 0 < bits) :
    stdAbs bits (minValue bits) = minValue bits := by
  unfold stdAbs minValue wrapSigned
  have hpos : (0 : Int) < 2 ^ (bits - 1) := by positivity
  have hpow : (2 : Int) ^ bits = 2 * 2 ^ (bits - 1) := by
    obtain ⟨k, rfl⟩ : ∃ k, bits = k + 1 := ⟨bits - 1, by omega⟩
    rw [Nat.add_sub_cancel, pow_succ]
    ring
  rw [if_pos (by omega), neg_neg, hpow]
  have : (2 : Int) ^ (bits - 1) + 2 ^ (bits - 1) = 2 * 2 ^ (bits - 1) := by ring
  rw [this, Int.emod_self]
  omega

theorem StdSort.run_sorted_by_stdAbs (S : StdSort) (bits : Nat) (xs : List CoVar) :
    (S.run (sortComparator bits) xs).Pairwise
      (fun a b => stdAbs bits b.1 ≤ stdAbs bits a.1) := by
  have h := S.sorted (sortComparator bits) xs (sortComparator_strictWeak bits)
  unfold SortedBy at h
  exact h.imp (fun {a b} hab => (sortComparator_eq_false_iff bits b a).mp hab)

/-- Away from the most negative value the sorted range is ordered by
non-increasing absolute coefficient as an integer. -/
theorem StdSort.run_sorted_by_abs (S : StdSort) {bits : Nat} (hb : 0 < bits)
    (xs : List CoVar)
    (h : ∀ e ∈ xs, InRange bits e.1 ∧ e.1 ≠ minValue bits) :
    (S.run (sortComparator bits) xs).Pairwise (fun a b => |b.1| ≤ |a.1|) := by
  have hp := S.perm (sortComparator bits) xs (sortComparator_strictWeak bits)
  refine (S.run_sorted_by_stdAbs bits xs).imp_of_mem ?_
  intro a b ha hb2 hab
  have ha2 := h a (hp.subset ha)
  have hb3 := h b (hp.subset hb2)
  rw [stdAbs_eq_abs hb ha2.1 ha2.2, stdAbs_eq_abs hb hb3.1 hb3.2] at hab
  exact hab

theorem pairwise_getElem? {α : Type} {R : α → α → Prop} {l : List α} (h : l.Pairwise R)
    {i j : Nat} {a b : α} (hij : i < j) (ha : l[i]? = some a) (hb : l[j]? = some b) :
    R a b := by
  obtain ⟨hi, rfl⟩ := List.getElem?_eq_some.mp ha
  obtain ⟨hj, rfl⟩ := List.getElem?_eq_some.mp hb
  exact List.pairwise_iff_getElem.mp h i j hi hj hij

theorem minimize_ctor_iterate_subset (S : StdSort) (p : Target) (adjust : Int)
    (elems : CoVarVec) (sort : Bool) :
    (MinimizeConstraint.ctor S p adjust elems sort).iterate ⊆ elems := by
  rw [minimize_ctor_iterate_eq]
  intro e he
  cases sort with
  | false => exact List.mem_of_mem_take he
  | true =>
    exact List.mem_of_mem_take
      ((S.perm _ _ (sortComparator_strictWeak _)).subset he)

theorem stdAbs_nonneg_of_ne_minValue {bits : Nat} (hb : 0 < bits) {x : Int}
    (h : InRange bits x) (hmin : x ≠ minValue bits) : 0 ≤ stdAbs bits x := by
  rw [stdAbs_eq_abs hb h hmin]
  exact abs_nonneg x

theorem minValue_neg (bits : Nat) : minValue bits < 0 := by
  unfold minValue
  have : (0 : Int) < 2 ^ (bits - 1) := by positivity
  omega

theorem take_map_some_eq_range_map_getElem? {α : Type} (l : List α) (k : Nat) :
    (l.take k).map some = (List.range (min k l.length)).map (fun i => l[i]?) := by
  rw [map_some_eq_range_map_getElem? (l.take k), List.length_take]
  apply List.map_congr_left
  intro i hi
  rw [List.mem_range] at hi
  rw [List.getElem?_take]
  simp only [ite_eq_left_iff]
  intro h
  omega

theorem minValue_after_others {bits : Nat} (hb : 0 < bits) {l : List CoVar}
    (hs : l.Pairwise (fun a b => stdAbs bits b.1 ≤ stdAbs bits a.1))
    (hr : ∀ e ∈ l, InRange bits e.1) {i j : Nat} {a b : CoVar}
    (ha : l[i]? = some a) (hbj : l[j]? = some b)
    (hamin : a.1 = minValue bits) (hbne : b.1 ≠ minValue bits) : j < i := by
  have hbmem : b ∈ l := List.getElem?_mem hbj
  have hbpos := stdAbs_nonneg_of_ne_minValue hb (hr b hbmem) hbne
  have hamin2 : stdAbs bits a.1 < 0 := by
    rw [hamin, stdAbs_minValue hb]
    exact minValue_neg bits
  rcases Nat.lt_trichotomy i j with hij | hij | hij
  · have := pairwise_getElem? hs hij ha hbj
    omega
  · subst hij
    rw [ha] at hbj
    have hab : a = b := Option.some.inj hbj
    rw [hab] at hamin
    exact absurd hamin hbne
  · exact hij

theorem sorted_by_stdAbs_unique {bits : Nat} {l₁ l₂ : List CoVar} (hp : l₁.Perm l₂)
    (hs₁ : l₁.Pairwise (fun a b => stdAbs bits b.1 ≤ stdAbs bits a.1))
    (hs₂ : l₂.Pairwise (fun a b => stdAbs bits b.1 ≤ stdAbs bits a.1))
    (hd : l₁.Pairwise (fun a b => stdAbs bits a.1 ≠ stdAbs bits b.1)) : l₁ = l₂ := by
  have hd₂ : l₂.Pairwise (fun a b => stdAbs bits a.1 ≠ stdAbs bits b.1) :=
    (hp.pairwise_iff (fun {x y} h => Ne.symm h)).mp hd
  have strict : ∀ {l : List CoVar},
      l.Pairwise (fun a b => stdAbs bits b.1 ≤ stdAbs bits a.1) →
      l.Pairwise (fun a b => stdAbs bits a.1 ≠ stdAbs bits b.1) →
      l.Pairwise (fun a b => stdAbs bits b.1 < stdAbs bits a.1) := by
    intro l h1 h2
    exact (h1.and h2).imp (fun {a b} h => by omega)
  haveI : IsAntisymm CoVar (fun a b => stdAbs bits b.1 < stdAbs bits a.1) :=
    ⟨fun a b h1 h2 => by omega⟩
  exact List.eq_of_perm_of_sorted hp (strict hs₁ hd) (strict hs₂ hd₂)

theorem stdAbs_ne_of_abs_ne {bits : Nat} (hb : 0 < bits) {x y : Int}
    (hx : InRange bits x) (hy : InRange bits y) (h : |x| ≠ |y|) :
    stdAbs bits x ≠ stdAbs bits y := by
  by_cases hxm : x = minValue bits
  · by_cases hym : y = minValue bits
    · rw [hxm, hym] at h
      exact absurd rfl h
    · have h1 := stdAbs_nonneg_of_ne_minValue hb hy hym
      have h2 := minValue_neg bits
      rw [hxm, stdAbs_minValue hb]
      omega
  · by_cases hym : y = minValue bits
    · have h1 := stdAbs_nonneg_of_ne_minValue hb hx hxm
      have h2 := minValue_neg bits
      rw [hym, stdAbs_minValue hb]
      omega
    · rw [stdAbs_eq_abs hb hx hxm, stdAbs_eq_abs hb hy hym]
      exact h

/-- With pairwise distinct absolute values the sorted sequence is the same for
every arrangement of the input and for every `std::sort`. -/
theorem StdSort.run_unique (S₁ S₂ : StdSort) {bits : Nat} (hb : 0 < bits)
    {e₁ e₂ : List CoVar} (hp : e₁.Perm e₂) (hr : ∀ e ∈ e₁, InRange bits e.1)
    (hd : e₁.Pairwise (fun a b => |a.1| ≠ |b.1|)) :
    S₁.run (sortComparator bits) e₁ = S₂.run (sortComparator bits) e₂ := by
  have hp₁ := S₁.perm (sortComparator bits) e₁ (sortComparator_strictWeak bits)
  have hp₂ := S₂.perm (sortComparator bits) e₂ (sortComparator_strictWeak bits)
  have hd₁ : e₁.Pairwise (fun a b => stdAbs bits a.1 ≠ stdAbs bits b.1) :=
    hd.imp_of_mem (fun {a b} ha hb2 h => stdAbs_ne_of_abs_ne hb (hr a ha) (hr b hb2) h)
  have hd₂ : (S₁.run (sortComparator bits) e₁).Pairwise
      (fun a b => stdAbs bits a.1 ≠ stdAbs bits b.1) :=
    (hp₁.pairwise_iff (fun {x y} h => Ne.symm h)).mpr hd₁
  exact sorted_by_stdAbs_unique (hp₁.trans (hp.trans hp₂.symm))
    (S₁.run_sorted_by_stdAbs bits e₁) (S₂.run_sorted_by_stdAbs bits e₂) hd₂

theorem minimumSum_perm (bounds : Bounds) {xs ys : List CoVar} (h : xs.Perm ys) :
    minimumSum bounds xs = minimumSum bounds ys := by
  unfold minimumSum
  exact (h.map _).sum_eq

theorem termMinimum_le (bounds : Bounds) (value : Nat → Int) (e : CoVar)
    (h : (bounds e.2).1 ≤ value e.2 ∧ value e.2 ≤ (bounds e.2).2) :
    termMinimum bounds e ≤ e.1 * value e.2 := by
  unfold termMinimum
  split
  · rename_i hpos
    exact Int.mul_le_mul_of_nonneg_left h.1 (Int.le_of_lt hpos)
  · split
    · rename_i hneg
      exact Int.mul_le_mul_of_nonpos_left (Int.le_of_lt hneg) h.2
    · rename_i h1 h2
      have h0 : e.1 = 0 := by omega
      rw [h0, Int.zero_mul]

theorem minimumSum_le_weightedSum (bounds : Bounds) (value : Nat → Int) (xs : List CoVar)
    (h : ∀ e ∈ xs, (bounds e.2).1 ≤ value e.2 ∧ value e.2 ≤ (bounds e.2).2) :
    minimumSum bounds xs ≤ weightedSum value xs := by
  induction xs with
  | nil => simp [minimumSum, weightedSum]
  | cons x xs ih =>
    have hx := termMinimum_le bounds value x (h x (List.mem_cons_self x xs))
    have hxs := ih (fun e he => h e (List.mem_cons_of_mem x he))
    unfold minimumSum weightedSum at hxs ⊢
    simp only [List.map_cons, List.sum_cons]
    omega

theorem sum_propagate_isConflict (S : StdSort) (p : Target) (lit rhs : Int)
    (elems : CoVarVec) (sort : Bool) (bounds : Bounds) :
    ((SumConstraint.ctor S p lit rhs elems sort).create_state.propagate bounds).isConflict =
      decide (rhs < minimumSum bounds elems) := by
  have hperm : (SumConstraint.ctor S p lit rhs elems sort).iterate.Perm elems := by
    rw [sum_ctor_iterate]
    exact sum_ctor_elements_perm S p lit rhs elems sort
  have hmin := minimumSum_perm bounds hperm
  have hrhs : (SumConstraint.ctor S p lit rhs elems sort).rhs = rhs := rfl
  unfold SumConstraintState.propagate SumConstraint.create_state
  simp only [hmin, hrhs]
  by_cases hc : rhs < minimumSum bounds elems
  · rw [if_pos hc]
    simp [Propagation.isConflict, hc]
  · rw [if_neg hc]
    simp [Propagation.isConflict, hc]

/-- A `std::vector` holds at most `PTRDIFF_MAX = 2^(sizeBits-1) - 1` bytes of
elements.  For an element sequence within that bound, and headers of at most
`2^(sizeBits-1)` bytes, the size that `create` computes does not exceed the
largest `size_t` and is not reduced: the block has `sizeof(header) + n *
sizeof(pair)` bytes. -/
theorem create_size_exact_within_vector_bound (S : StdSort) (p : Target)
    (lit rhs adjust : Int) (elems : CoVarVec) (sort : Bool) (hbits : 0 < p.sizeBits)
    (hvec : elems.length * p.sizeofPair ≤ 2 ^ (p.sizeBits - 1) - 1)
    (hsum : p.sizeofSum ≤ 2 ^ (p.sizeBits - 1))
    (hmin : p.sizeofMinimize ≤ 2 ^ (p.sizeBits - 1)) :
    p.sizeofSum + elems.length * p.sizeofPair ≤ 2 ^ p.sizeBits - 1 ∧
    p.sizeofMinimize + elems.length * p.sizeofPair ≤ 2 ^ p.sizeBits - 1 ∧
    (SumConstraint.create S p lit rhs elems sort).bytes =
      p.sizeofSum + elems.length * p.sizeofPair ∧
    (MinimizeConstraint.create S p adjust elems sort).bytes =
      p.sizeofMinimize + elems.length * p.sizeofPair := by
  have hpow : 2 ^ p.sizeBits = 2 * 2 ^ (p.sizeBits - 1) := by
    obtain ⟨k, hk⟩ : ∃ k, p.sizeBits = k + 1 := ⟨p.sizeBits - 1, by omega⟩
    rw [hk, Nat.add_sub_cancel, Nat.pow_succ, Nat.mul_comm]
  have hpos : 0 < 2 ^ (p.sizeBits - 1) := Nat.two_pow_pos _
  refine ⟨by omega, by omega, ?_, ?_⟩
  · exact Nat.mod_eq_of_lt (by omega)
  · exact Nat.mod_eq_of_lt (by omega)

/-! ## Claims -/

/-- C1: for every element sequence, literal, right-hand side and value of
`sort`, the sum constraint made by `SumConstraint::create` has `size()` equal to
the length of the input, the trailing array has that length too, iterating from
`begin()` to `end()` visits exactly the cells `c[0] .. c[size-1]`, and the
visited pairs are a permutation of the input (equal as multisets). -/
theorem sum_create_size_and_permutation (S : StdSort) (p : Target) (lit rhs : Int)
    (elems : CoVarVec) (sort : Bool) :
    (SumConstraint.create S p lit rhs elems sort).object.size = elems.length ∧
    (SumConstraint.create S p lit rhs elems sort).object.elements_.length =
      (SumConstraint.create S p lit rhs elems sort).object.size ∧
    (SumConstraint.create S p lit rhs elems sort).object.iterate.length =
      (SumConstraint.create S p lit rhs elems sort).object.size ∧
    (SumConstraint.create S p lit rhs elems sort).object.iterate.map some =
      (List.range (SumConstraint.create S p lit rhs elems sort).object.size).map
        (SumConstraint.create S p lit rhs elems sort).object.subscript ∧
    (SumConstraint.create S p lit rhs elems sort).object.iterate.Perm elems ∧
    Multiset.ofList (SumConstraint.create S p lit rhs elems sort).object.iterate =
      Multiset.ofList elems := by
  have hperm := sum_ctor_elements_perm S p lit rhs elems sort
  have hit := sum_ctor_iterate S p lit rhs elems sort
  have hsize : (SumConstraint.ctor S p lit rhs elems sort).size = elems.length := rfl
  simp only [SumConstraint.create]
  refine ⟨hsize, ?_, ?_, ?_, ?_, ?_⟩
  · rw [hsize, hperm.length_eq]
  · rw [hit, hsize, hperm.length_eq]
  · rw [hit, hsize, ← hperm.length_eq]
    exact map_some_eq_range_map_getElem? _
  · rw [hit]; exact hperm
  · rw [hit]; exact Quotient.sound hperm

/-- C2 (evaluation at the failing input): with 32-bit values every `std::sort`
moves the pair with the most negative coefficient `-2147483648` behind the pair
with coefficient `1`, for `SumConstraint` and for `MinimizeConstraint` alike,
although the absolute value of `-2147483648` as an integer is the larger one. -/
theorem sorted_create_puts_min_value_last (S : StdSort) :
    (SumConstraint.create S lp64 1 0 [(-2147483648, 0), (1, 1)] true).object.iterate =
      [(1, 1), (-2147483648, 0)] ∧
    (MinimizeConstraint.create S lp64 0 [(-2147483648, 0), (1, 1)] true).object.iterate =
      [(1, 1), (-2147483648, 0)] ∧
    ¬ (|(1 : Int)| ≥ |(-2147483648 : Int)|) := by
  have hrun : S.run (sortComparator lp64.valBits) [(-2147483648, 0), (1, 1)] =
      [(1, 1), (-2147483648, 0)] :=
    S.run_pair (sortComparator_strictWeak _) (by decide)
  refine ⟨?_, ?_, by decide⟩
  · simp only [SumConstraint.create]
    rw [sum_ctor_iterate_eq]
    exact hrun
  · simp only [MinimizeConstraint.create]
    rw [minimize_ctor_iterate_eq]
    exact hrun

/-- C3: with `sort = false` the sum constraint keeps the input order: `c[i]` is
`elems[i]` at every index (defined exactly for `i < elems.size()`), `size()` is
the length of `elems`, and iterating from `begin()` to `end()` yields `elems`
itself. -/
theorem sum_create_unsorted_keeps_order (S : StdSort) (p : Target) (lit rhs : Int)
    (elems : CoVarVec) :
    (∀ i, (SumConstraint.create S p lit rhs elems false).object.subscript i = elems[i]?) ∧
    (∀ i (h : i < elems.length),
      (SumConstraint.create S p lit rhs elems false).object.subscript i = some elems[i]) ∧
    (SumConstraint.create S p lit rhs elems false).object.size = elems.length ∧
    (SumConstraint.create S p lit rhs elems false).object.iterate = elems := by
  refine ⟨fun i => rfl, ?_, rfl, ?_⟩
  · intro i h
    show elems[i]? = some elems[i]
    exact List.getElem?_eq_getElem h
  · simp only [SumConstraint.create]
    rw [sum_ctor_iterate_eq]
    rfl

/-- C4 (counterexample): for an element sequence of `4294967296 = 2^32` pairs
the minimize constraint reports `size() = 0` and iteration from `begin()` to
`end()` visits nothing, for both values of `sort`, although all pairs were
copied into the trailing array. -/
theorem minimize_create_truncates_count :
    (List.replicate 4294967296 ((1 : Int), (0 : Nat))).length = 4294967296 ∧
    (MinimizeConstraint.create insertionStdSort lp64 0
      (List.replicate 4294967296 ((1 : Int), (0 : Nat))) false).object.size = 0 ∧
    (MinimizeConstraint.create insertionStdSort lp64 0
      (List.replicate 4294967296 ((1 : Int), (0 : Nat))) false).object.iterate = [] ∧
    (MinimizeConstraint.create insertionStdSort lp64 0
      (List.replicate 4294967296 ((1 : Int), (0 : Nat))) false).object.elements_.length =
        4294967296 ∧
    (MinimizeConstraint.create insertionStdSort lp64 0
      (List.replicate 4294967296 ((1 : Int), (0 : Nat))) true).object.size = 0 ∧
    (MinimizeConstraint.create insertionStdSort lp64 0
      (List.replicate 4294967296 ((1 : Int), (0 : Nat))) true).object.iterate = [] := by
  have key : ∀ (elems : CoVarVec) (sort : Bool), elems.length = 4294967296 →
      (MinimizeConstraint.create insertionStdSort lp64 0 elems sort).object.size = 0 ∧
      (MinimizeConstraint.create insertionStdSort lp64 0 elems sort).object.iterate = [] ∧
      (MinimizeConstraint.create insertionStdSort lp64 0 elems sort).object.elements_.length =
        4294967296 := by
    intro elems sort hlen
    have hz : elems.length % 2 ^ 32 = 0 := by rw [hlen]; norm_num
    refine ⟨hz, ?_, ?_⟩
    · simp only [MinimizeConstraint.create]
      rw [minimize_ctor_iterate_eq, hz, List.take_zero]
      cases sort with
      | false => rfl
      | true => exact insertionStdSort.run_nil (sortComparator_strictWeak _)
    · simp only [MinimizeConstraint.create]
      rw [(minimize_ctor_elements_perm insertionStdSort lp64 0 elems sort).length_eq, hlen]
  have hlen := List.length_replicate 4294967296 ((1 : Int), (0 : Nat))
  have hf := key (List.replicate 4294967296 ((1 : Int), (0 : Nat))) false hlen
  have ht := key (List.replicate 4294967296 ((1 : Int), (0 : Nat))) true hlen
  exact ⟨hlen, hf.1, hf.2.1, hf.2.2, ht.1, ht.2.1⟩

/-- C4 (amended): for every element sequence of fewer than `2^32` pairs, every
adjustment and both values of `sort`, the minimize constraint made by
`MinimizeConstraint::create` has `size()` equal to the length of the input,
iterating from `begin()` to `end()` visits exactly the cells
`m[0] .. m[size-1]`, that many, the visited pairs are a permutation of the
input (equal as multisets), and they are the input itself when `sort` is not
set. -/
theorem minimize_create_size_and_permutation (S : StdSort) (p : Target) (adjust : Int)
    (elems : CoVarVec) (sort : Bool) (h : elems.length < 2 ^ 32) :
    (MinimizeConstraint.create S p adjust elems sort).object.size = elems.length ∧
    (MinimizeConstraint.create S p adjust elems sort).object.iterate.length = elems.length ∧
    (MinimizeConstraint.create S p adjust elems sort).object.iterate.map some =
      (List.range (MinimizeConstraint.create S p adjust elems sort).object.size).map
        (MinimizeConstraint.create S p adjust elems sort).object.subscript ∧
    (MinimizeConstraint.create S p adjust elems sort).object.iterate.Perm elems ∧
    Multiset.ofList (MinimizeConstraint.create S p adjust elems sort).object.iterate =
      Multiset.ofList elems ∧
    (sort = false →
      (MinimizeConstraint.create S p adjust elems sort).object.iterate = elems) := by
  have hk : elems.length % 2 ^ 32 = elems.length := Nat.mod_eq_of_lt h
  have hsize : (MinimizeConstraint.ctor S p adjust elems sort).size = elems.length := hk
  have hel := minimize_ctor_elements_perm S p adjust elems sort
  have hit : (MinimizeConstraint.ctor S p adjust elems sort).iterate =
      (MinimizeConstraint.ctor S p adjust elems sort).elements_ := by
    rw [minimize_iterate_eq]
    apply List.take_of_length_le
    rw [hel.length_eq]
    exact Nat.le_of_eq hk.symm
  simp only [MinimizeConstraint.create]
  refine ⟨hsize, ?_, ?_, ?_, ?_, ?_⟩
  · rw [hit, hel.length_eq]
  · rw [hit, hsize, ← hel.length_eq]
    exact map_some_eq_range_map_getElem? _
  · rw [hit]; exact hel
  · rw [hit]; exact Quotient.sound hel
  · intro hs
    rw [hit, hs]
    rfl

/-- C4 (witness): three pairs at the 64-bit target, sorted. -/
theorem minimize_create_size_and_permutation_witness :
    [((1 : Int), (1 : Nat)), (3, 0), (-7, 2)].length < 2 ^ 32 ∧
    (MinimizeConstraint.create insertionStdSort lp64 (-5)
      [(1, 1), (3, 0), (-7, 2)] true).object.size = 3 ∧
    (MinimizeConstraint.create insertionStdSort lp64 (-5)
      [(1, 1), (3, 0), (-7, 2)] true).object.iterate = [(-7, 2), (3, 0), (1, 1)] :=
  ⟨by decide,
    (minimize_create_size_and_permutation insertionStdSort lp64 (-5)
      [(1, 1), (3, 0), (-7, 2)] true (by decide)).1,
    by decide⟩

/-- C6: the `sort` flag does not change the weighted sum.  Under every
assignment of integers to the variables the sum over the elements of a sum
constraint built with `sort = true` equals the sum built with `sort = false`
and the sum over `elems`; for a minimize constraint the sum plus `adjust()` is
the same for `sort = true` and `sort = false`. -/
theorem sort_flag_preserves_weighted_sum (S : StdSort) (p : Target) (lit rhs adjust : Int)
    (elems : CoVarVec) (value : Nat → Int) :
    weightedSum value (SumConstraint.create S p lit rhs elems true).object.iterate =
      weightedSum value (SumConstraint.create S p lit rhs elems false).object.iterate ∧
    weightedSum value (SumConstraint.create S p lit rhs elems false).object.iterate =
      weightedSum value elems ∧
    weightedSum value (MinimizeConstraint.create S p adjust elems true).object.iterate +
        MinimizeConstraint.adjust p (MinimizeConstraint.create S p adjust elems true).object =
      weightedSum value (MinimizeConstraint.create S p adjust elems false).object.iterate +
        MinimizeConstraint.adjust p (MinimizeConstraint.create S p adjust elems false).object := by
  simp only [SumConstraint.create, MinimizeConstraint.create]
  refine ⟨?_, ?_, ?_⟩
  · rw [sum_ctor_iterate_eq, sum_ctor_iterate_eq]
    exact weightedSum_perm value (S.perm _ _ (sortComparator_strictWeak _))
  · rw [sum_ctor_iterate_eq]
    rfl
  · rw [minimize_ctor_iterate_eq, minimize_ctor_iterate_eq]
    have h : weightedSum value
        (S.run (sortComparator p.valBits) (List.take (elems.length % 2 ^ 32) elems)) =
        weightedSum value (List.take (elems.length % 2 ^ 32) elems) :=
      weightedSum_perm value (S.perm _ _ (sortComparator_strictWeak _))
    simp only [if_true, Bool.false_eq_true, if_false]
    rw [h]
    rfl

/-- C7: the empty element sequence is accepted.  For every literal, right-hand
side, adjustment of the value type and value of `sort`, both `create` functions
return a constraint with `size() = 0` and `begin() = end()`; iteration visits
nothing, so under every assignment the sum of the sum constraint is `0` and the
sum plus `adjust()` of the minimize constraint is `adjust`. -/
theorem create_accepts_empty (S : StdSort) (p : Target) (lit rhs adjust : Int) (sort : Bool)
    (value : Nat → Int) (h : InRange p.valBits adjust) :
    (SumConstraint.create S p lit rhs [] sort).object.size = 0 ∧
    (SumConstraint.create S p lit rhs [] sort).object.begin =
      (SumConstraint.create S p lit rhs [] sort).object.end_ ∧
    (SumConstraint.create S p lit rhs [] sort).object.iterate = [] ∧
    weightedSum value (SumConstraint.create S p lit rhs [] sort).object.iterate = 0 ∧
    (MinimizeConstraint.create S p adjust [] sort).object.size = 0 ∧
    (MinimizeConstraint.create S p adjust [] sort).object.begin =
      (MinimizeConstraint.create S p adjust [] sort).object.end_ ∧
    (MinimizeConstraint.create S p adjust [] sort).object.iterate = [] ∧
    weightedSum value (MinimizeConstraint.create S p adjust [] sort).object.iterate +
        MinimizeConstraint.adjust p (MinimizeConstraint.create S p adjust [] sort).object =
      adjust := by
  have hs : (SumConstraint.create S p lit rhs [] sort).object.iterate = [] := by
    simp only [SumConstraint.create]
    rw [sum_ctor_iterate_eq]
    cases sort with
    | false => rfl
    | true => exact S.run_nil (sortComparator_strictWeak _)
  have hm : (MinimizeConstraint.create S p adjust [] sort).object.iterate = [] := by
    simp only [MinimizeConstraint.create]
    rw [minimize_ctor_iterate_eq]
    cases sort with
    | false => rfl
    | true => exact S.run_nil (sortComparator_strictWeak _)
  refine ⟨rfl, rfl, hs, ?_, rfl, rfl, hm, ?_⟩
  · rw [hs]; rfl
  · rw [hm]
    have := minimize_adjust_ctor S p adjust [] sort h
    simp only [MinimizeConstraint.create]
    rw [this]
    simp [weightedSum]

/-- C7 (witness): the empty sequence at the 64-bit target with the most negative
32-bit adjustment. -/
theorem create_accepts_empty_witness :
    InRange lp64.valBits (-2147483648) ∧
    (SumConstraint.create insertionStdSort lp64 3 7 [] true).object.size = 0 ∧
    weightedSum (fun _ => 5)
        (MinimizeConstraint.create insertionStdSort lp64 (-2147483648) [] true).object.iterate +
      MinimizeConstraint.adjust lp64
        (MinimizeConstraint.create insertionStdSort lp64 (-2147483648) [] true).object =
      -2147483648 :=
  have h : InRange lp64.valBits (-2147483648) := by decide
  ⟨h, (create_accepts_empty insertionStdSort lp64 3 7 (-2147483648) true (fun _ => 5) h).1,
    (create_accepts_empty insertionStdSort lp64 3 7 (-2147483648) true
      (fun _ => 5) h).2.2.2.2.2.2.2⟩

/-- C8: `DistinctConstraint` stores its terms unchanged and in order: the
literal is returned as given, `size()` is the number of terms, `d[i]` is the
`i`-th term (linear part and constant) for every `i < size()`, and iterating
from `begin()` to `end()` yields the terms in their original order. -/
theorem distinct_stores_terms_unchanged (lit : Int) (ts : List Term) :
    (DistinctConstraint.ctor lit ts).literal = lit ∧
    (DistinctConstraint.ctor lit ts).size = ts.length ∧
    (∀ i (h : i < ts.length), (DistinctConstraint.ctor lit ts).subscript i = some ts[i]) ∧
    (∀ i, (DistinctConstraint.ctor lit ts).subscript i = ts[i]?) ∧
    (DistinctConstraint.ctor lit ts).iterate = ts := by
  refine ⟨rfl, rfl, ?_, fun _ => rfl, ?_⟩
  · intro i h
    show ts[i]? = some ts[i]
    exact List.getElem?_eq_getElem h
  · simp [DistinctConstraint.iterate, DistinctConstraint.begin, DistinctConstraint.end_,
      DistinctConstraint.ctor]

/-- C9: a minimize constraint is always active: `literal()` returns `TRUE_LIT`
whatever the adjustment, the elements and the value of `sort`. -/
theorem minimize_literal_is_true_lit (S : StdSort) (p : Target) (adjust : Int)
    (elems : CoVarVec) (sort : Bool) :
    MinimizeConstraint.literal p (MinimizeConstraint.create S p adjust elems sort).object =
      p.TRUE_LIT := rfl

/-- C10: `adjust()` returns the adjustment unchanged for every value of the
value type, the extremes included, although the field is a `lit_t`. -/
theorem minimize_adjust_unchanged (S : StdSort) (p : Target) (adjust : Int)
    (elems : CoVarVec) (sort : Bool) (h : InRange p.valBits adjust) :
    MinimizeConstraint.adjust p (MinimizeConstraint.create S p adjust elems sort).object =
      adjust :=
  minimize_adjust_ctor S p adjust elems sort h

/-- C10 (witness): the two extremes of the 32-bit value type. -/
theorem minimize_adjust_unchanged_witness :
    InRange lp64.valBits (-2147483648) ∧ InRange lp64.valBits 2147483647 ∧
    MinimizeConstraint.adjust lp64
      (MinimizeConstraint.create insertionStdSort lp64 (-2147483648) [(2, 0), (-3, 1)]
        true).object = -2147483648 ∧
    MinimizeConstraint.adjust lp64
      (MinimizeConstraint.create insertionStdSort lp64 2147483647 [(2, 0), (-3, 1)]
        false).object = 2147483647 :=
  ⟨by decide, by decide,
    minimize_adjust_unchanged insertionStdSort lp64 (-2147483648) [(2, 0), (-3, 1)] true
      (by decide),
    minimize_adjust_unchanged insertionStdSort lp64 2147483647 [(2, 0), (-3, 1)] false
      (by decide)⟩

/-- C11: a sum constraint returns its header inputs unchanged: for every
literal, right-hand side, element sequence and value of `sort`, `literal()` is
the literal and `rhs()` the right-hand side given to `create`; both are the
same with and without sorting. -/
theorem sum_create_literal_and_rhs (S : StdSort) (p : Target) (lit rhs : Int)
    (elems : CoVarVec) (sort : Bool) :
    (SumConstraint.create S p lit rhs elems sort).object.literal = lit ∧
    (SumConstraint.create S p lit rhs elems sort).object.rhs = rhs ∧
    (SumConstraint.create S p lit rhs elems true).object.literal =
      (SumConstraint.create S p lit rhs elems false).object.literal ∧
    (SumConstraint.create S p lit rhs elems true).object.rhs =
      (SumConstraint.create S p lit rhs elems false).object.rhs :=
  ⟨rfl, rfl, rfl, rfl⟩

/-- C14: a minimize constraint keeps its element count in 32 bits.  For an
element sequence of length `n`, `size()` is `n mod 2^32`; the cells visited from
`begin()` to `end()` are the cells `m[0] .. m[size-1]` and form a permutation of
the first `n mod 2^32` elements of the input, those elements in input order when
`sort` is not set; `size()` is `n`, and all elements are visited, exactly when
`n < 2^32`.  A sum constraint reports `n` for every `n`. -/
theorem minimize_count_is_32_bit (S : StdSort) (p : Target) (lit rhs adjust : Int)
    (elems : CoVarVec) (sort : Bool) :
    (MinimizeConstraint.create S p adjust elems sort).object.size =
      elems.length % 2 ^ 32 ∧
    (MinimizeConstraint.create S p adjust elems sort).object.iterate.map some =
      (List.range (MinimizeConstraint.create S p adjust elems sort).object.size).map
        (MinimizeConstraint.create S p adjust elems sort).object.subscript ∧
    (MinimizeConstraint.create S p adjust elems sort).object.iterate.Perm
      (elems.take (elems.length % 2 ^ 32)) ∧
    (MinimizeConstraint.create S p adjust elems false).object.iterate =
      elems.take (elems.length % 2 ^ 32) ∧
    ((MinimizeConstraint.create S p adjust elems sort).object.size = elems.length ↔
      elems.length < 2 ^ 32) ∧
    ((MinimizeConstraint.create S p adjust elems sort).object.iterate.length = elems.length ↔
      elems.length < 2 ^ 32) ∧
    ((MinimizeConstraint.create S p adjust elems sort).object.iterate.Perm elems ↔
      elems.length < 2 ^ 32) ∧
    (SumConstraint.create S p lit rhs elems sort).object.size = elems.length := by
  have hpos : 0 < 2 ^ 32 := Nat.two_pow_pos 32
  have hmod : elems.length % 2 ^ 32 = elems.length ↔ elems.length < 2 ^ 32 := by
    constructor
    · intro h
      rw [← h]
      exact Nat.mod_lt _ hpos
    · exact Nat.mod_eq_of_lt
  have hle : elems.length % 2 ^ 32 ≤ elems.length := Nat.mod_le _ _
  have hperm : (MinimizeConstraint.ctor S p adjust elems sort).iterate.Perm
      (elems.take (elems.length % 2 ^ 32)) := by
    rw [minimize_ctor_iterate_eq]
    cases sort with
    | false => exact List.Perm.refl _
    | true => exact S.perm _ _ (sortComparator_strictWeak _)
  have hlen : (MinimizeConstraint.ctor S p adjust elems sort).iterate.length =
      elems.length % 2 ^ 32 := by
    rw [hperm.length_eq, List.length_take]
    exact Nat.min_eq_left hle
  simp only [MinimizeConstraint.create, SumConstraint.create]
  refine ⟨rfl, ?_, hperm, ?_, hmod, ?_, ?_, rfl⟩
  · have hel := minimize_ctor_elements_perm S p adjust elems sort
    have hk : min (elems.length % 2 ^ 32)
        (MinimizeConstraint.ctor S p adjust elems sort).elements_.length =
        elems.length % 2 ^ 32 := by
      rw [hel.length_eq]
      exact Nat.min_eq_left hle
    have key := take_map_some_eq_range_map_getElem?
      (MinimizeConstraint.ctor S p adjust elems sort).elements_ (elems.length % 2 ^ 32)
    rw [hk] at key
    rw [minimize_iterate_eq]
    exact key
  · rw [minimize_ctor_iterate_eq]
    rfl
  · rw [hlen]
    exact hmod
  · constructor
    · intro h
      have := h.length_eq
      rw [hlen] at this
      exact hmod.mp this
    · intro h
      have hk := hmod.mpr h
      rw [hk, List.take_length] at hperm
      exact hperm

/-- C16: the comparator of the sort, `less(a, b) := abs(a.first) > abs(b.first)`
with the fixed-width `std::abs`, is a strict weak ordering for every width of
the value type: it is irreflexive, asymmetric and transitive, and
incomparability is reflexive, symmetric and transitive and holds exactly when
the two absolute values are equal, whatever the variables. -/
theorem comparator_is_strict_weak_ordering (bits : Nat) :
    StrictWeakOrder (sortComparator bits) ∧
    (∀ a, sortComparator bits a a = false) ∧
    (∀ a b, sortComparator bits a b = true → sortComparator bits b a = false) ∧
    (∀ a b c, sortComparator bits a b = true → sortComparator bits b c = true →
      sortComparator bits a c = true) ∧
    (∀ a b, (sortComparator bits a b = false ∧ sortComparator bits b a = false) ↔
      stdAbs bits a.1 = stdAbs bits b.1) ∧
    (∀ a b, (sortComparator bits a b = false ∧ sortComparator bits b a = false) →
      (sortComparator bits b a = false ∧ sortComparator bits a b = false)) ∧
    (∀ a b c, (sortComparator bits a b = false ∧ sortComparator bits b a = false) →
      (sortComparator bits b c = false ∧ sortComparator bits c b = false) →
      (sortComparator bits a c = false ∧ sortComparator bits c a = false)) ∧
    (∀ (c : Int) (x y : Nat),
      sortComparator bits (c, x) (c, y) = false ∧ sortComparator bits (c, y) (c, x) = false) := by
  have hsw := sortComparator_strictWeak bits
  refine ⟨hsw, hsw.1, fun a b h => hsw.asymm h, hsw.2.1, ?_, ?_, ?_, ?_⟩
  · intro a b
    simp only [sortComparator_eq_false_iff]
    omega
  · intro a b h
    exact ⟨h.2, h.1⟩
  · intro a b c h1 h2
    exact hsw.2.2 a b c h1.1 h1.2 h2.1 h2.2
  · intro c x y
    simp only [sortComparator_eq_false_iff]
    omega

/-- C12 (counterexample): two pairs with the equal coefficients `1` and `1`
stay next to each other in the sorted constraint, for `SumConstraint` and for
`MinimizeConstraint`, so the absolute coefficient does not strictly descend. -/
theorem sorted_create_keeps_equal_magnitudes :
    (SumConstraint.create insertionStdSort lp64 1 0 [(1, 0), (1, 1)] true).object.size = 2 ∧
    (SumConstraint.create insertionStdSort lp64 1 0 [(1, 0), (1, 1)] true).object.subscript 0 =
      some (1, 0) ∧
    (SumConstraint.create insertionStdSort lp64 1 0 [(1, 0), (1, 1)] true).object.subscript 1 =
      some (1, 1) ∧
    (MinimizeConstraint.create insertionStdSort lp64 0 [(1, 0), (1, 1)] true).object.size = 2 ∧
    (MinimizeConstraint.create insertionStdSort lp64 0 [(1, 0), (1, 1)] true).object.subscript 0 =
      some (1, 0) ∧
    (MinimizeConstraint.create insertionStdSort lp64 0 [(1, 0), (1, 1)] true).object.subscript 1 =
      some (1, 1) ∧
    ¬ (|(1 : Int)| > |(1 : Int)|) := by
  decide

/-- C12 (amended): when `sort` is set and every coefficient is a value of the
value type other than its most negative one, the elements of the constraint
made by `SumConstraint::create` and by `MinimizeConstraint::create` are in
non-increasing order of absolute coefficient: at adjacent positions `i`, `i+1`
the absolute value of the first coefficient is at least that of the second. -/
theorem sorted_create_adjacent_nonincreasing (S : StdSort) (p : Target) (lit rhs adjust : Int)
    (elems : CoVarVec)
    (h : ∀ e ∈ elems, InRange p.valBits e.1 ∧ e.1 ≠ minValue p.valBits) :
    (∀ i a b,
      (SumConstraint.create S p lit rhs elems true).object.iterate[i]? = some a →
      (SumConstraint.create S p lit rhs elems true).object.iterate[i + 1]? = some b →
      |a.1| ≥ |b.1|) ∧
    (∀ i a b,
      (MinimizeConstraint.create S p adjust elems true).object.iterate[i]? = some a →
      (MinimizeConstraint.create S p adjust elems true).object.iterate[i + 1]? = some b →
      |a.1| ≥ |b.1|) := by
  simp only [SumConstraint.create, MinimizeConstraint.create]
  rw [sum_ctor_iterate_eq, minimize_ctor_iterate_eq]
  constructor
  · intro i a b ha hb
    exact pairwise_getElem? (S.run_sorted_by_abs p.valBits_pos elems h) (Nat.lt_succ_self i)
      ha hb
  · intro i a b ha hb
    exact pairwise_getElem?
      (S.run_sorted_by_abs p.valBits_pos _ (fun e he => h e (List.mem_of_mem_take he)))
      (Nat.lt_succ_self i) ha hb

/-- C12 (witness): three pairs at the 64-bit target, two of equal magnitude. -/
theorem sorted_create_adjacent_nonincreasing_witness :
    (∀ e ∈ [((2 : Int), (0 : Nat)), (-2, 1), (1, 2)],
      InRange lp64.valBits e.1 ∧ e.1 ≠ minValue lp64.valBits) ∧
    (SumConstraint.create insertionStdSort lp64 1 0 [(2, 0), (-2, 1), (1, 2)]
      true).object.iterate = [(2, 0), (-2, 1), (1, 2)] ∧
    |(2 : Int)| ≥ |(-2 : Int)| ∧ |(-2 : Int)| ≥ |(1 : Int)| :=
  have h : ∀ e ∈ [((2 : Int), (0 : Nat)), (-2, 1), (1, 2)],
      InRange lp64.valBits e.1 ∧ e.1 ≠ minValue lp64.valBits := by decide
  ⟨h, by decide,
    (sorted_create_adjacent_nonincreasing insertionStdSort lp64 1 0 0
      [(2, 0), (-2, 1), (1, 2)] h).1 0 (2, 0) (-2, 1) (by decide) (by decide),
    (sorted_create_adjacent_nonincreasing insertionStdSort lp64 1 0 0
      [(2, 0), (-2, 1), (1, 2)] h).1 1 (-2, 1) (1, 2) (by decide) (by decide)⟩

/-- C15: with `sort` set the constructed sequence is non-increasing under the
key the comparator computes, the fixed-width `std::abs`, which returns the most
negative value `MIN` of the value type unchanged: at positions `i < j` the key
at `i` is at least the key at `j`, for `SumConstraint` and for
`MinimizeConstraint`.  Hence a pair with coefficient `MIN` stands behind every
pair with another coefficient, a coefficient `0` included. -/
theorem sorted_create_nonincreasing_fixed_width_abs (S : StdSort) (p : Target)
    (lit rhs adjust : Int) (elems : CoVarVec) (h : ∀ e ∈ elems, InRange p.valBits e.1) :
    stdAbs p.valBits (minValue p.valBits) = minValue p.valBits ∧
    (∀ (i j : Nat) (a b : CoVar), i < j →
      (SumConstraint.create S p lit rhs elems true).object.iterate[i]? = some a →
      (SumConstraint.create S p lit rhs elems true).object.iterate[j]? = some b →
      stdAbs p.valBits a.1 ≥ stdAbs p.valBits b.1) ∧
    (∀ (i j : Nat) (a b : CoVar), i < j →
      (MinimizeConstraint.create S p adjust elems true).object.iterate[i]? = some a →
      (MinimizeConstraint.create S p adjust elems true).object.iterate[j]? = some b →
      stdAbs p.valBits a.1 ≥ stdAbs p.valBits b.1) ∧
    (∀ (i j : Nat) (a b : CoVar),
      (SumConstraint.create S p lit rhs elems true).object.iterate[i]? = some a →
      (SumConstraint.create S p lit rhs elems true).object.iterate[j]? = some b →
      a.1 = minValue p.valBits → b.1 ≠ minValue p.valBits → j < i) ∧
    (∀ (i j : Nat) (a b : CoVar),
      (MinimizeConstraint.create S p adjust elems true).object.iterate[i]? = some a →
      (MinimizeConstraint.create S p adjust elems true).object.iterate[j]? = some b →
      a.1 = minValue p.valBits → b.1 ≠ minValue p.valBits → j < i) := by
  have hsum : ∀ e ∈ S.run (sortComparator p.valBits) elems, InRange p.valBits e.1 :=
    fun e he => h e ((S.perm _ _ (sortComparator_strictWeak _)).subset he)
  have hmin : ∀ e ∈ S.run (sortComparator p.valBits) (elems.take (elems.length % 2 ^ 32)),
      InRange p.valBits e.1 :=
    fun e he => h e (List.mem_of_mem_take
      ((S.perm _ _ (sortComparator_strictWeak _)).subset he))
  simp only [SumConstraint.create, MinimizeConstraint.create]
  rw [sum_ctor_iterate_eq, minimize_ctor_iterate_eq]
  refine ⟨stdAbs_minValue p.valBits_pos, ?_, ?_, ?_, ?_⟩
  · intro i j a b hij ha hb
    exact pairwise_getElem? (S.run_sorted_by_stdAbs p.valBits elems) hij ha hb
  · intro i j a b hij ha hb
    exact pairwise_getElem? (S.run_sorted_by_stdAbs p.valBits _) hij ha hb
  · intro i j a b ha hb hamin hbne
    exact minValue_after_others p.valBits_pos (S.run_sorted_by_stdAbs p.valBits elems) hsum
      ha hb hamin hbne
  · intro i j a b ha hb hamin hbne
    exact minValue_after_others p.valBits_pos (S.run_sorted_by_stdAbs p.valBits _) hmin
      ha hb hamin hbne

/-- C15 (witness): 32-bit values with two coefficients `-2147483648` and a
coefficient `0`: the pair with coefficient `0` at position 2 stands before the
pair with coefficient `-2147483648` at position 3. -/
theorem sorted_create_nonincreasing_fixed_width_abs_witness :
    (∀ e ∈ [((-2147483648 : Int), (0 : Nat)), (0, 1), (5, 2), (-2147483648, 3), (-7, 4)],
      InRange lp64.valBits e.1) ∧
    (SumConstraint.create insertionStdSort lp64 1 0
      [(-2147483648, 0), (0, 1), (5, 2), (-2147483648, 3), (-7, 4)] true).object.iterate =
      [(-7, 4), (5, 2), (0, 1), (-2147483648, 0), (-2147483648, 3)] ∧
    2 < 3 :=
  have h : ∀ e ∈ [((-2147483648 : Int), (0 : Nat)), (0, 1), (5, 2), (-2147483648, 3), (-7, 4)],
      InRange lp64.valBits e.1 := by decide
  ⟨h, by decide,
    (sorted_create_nonincreasing_fixed_width_abs insertionStdSort lp64 1 0 0
      [(-2147483648, 0), (0, 1), (5, 2), (-2147483648, 3), (-7, 4)] h).2.2.2.1
      3 2 (-2147483648, 0) (0, 1) (by decide) (by decide) (by decide) (by decide)⟩

/-- C17: with `sort` set the result depends on the order of the input only
through ties.  For two element sequences that are permutations of each other,
with coefficients of the value type whose absolute values are pairwise
distinct, the two sum constraints have the same elements at every index; and
building a sorted constraint again from the elements of a sorted constraint
returns the same sequence. -/
theorem sorted_create_independent_of_input_order (S : StdSort) (p : Target) (lit rhs : Int)
    (e₁ e₂ : CoVarVec) (hp : e₁.Perm e₂) (hr : ∀ e ∈ e₁, InRange p.valBits e.1)
    (hd : e₁.Pairwise (fun a b => |a.1| ≠ |b.1|)) :
    (SumConstraint.create S p lit rhs e₁ true).object.iterate =
      (SumConstraint.create S p lit rhs e₂ true).object.iterate ∧
    (SumConstraint.create S p lit rhs e₁ true).object.size =
      (SumConstraint.create S p lit rhs e₂ true).object.size ∧
    (∀ i, (SumConstraint.create S p lit rhs e₁ true).object.subscript i =
      (SumConstraint.create S p lit rhs e₂ true).object.subscript i) ∧
    (SumConstraint.create S p lit rhs
      (SumConstraint.create S p lit rhs e₁ true).object.iterate true).object.iterate =
      (SumConstraint.create S p lit rhs e₁ true).object.iterate := by
  have hrun : S.run (sortComparator p.valBits) e₁ = S.run (sortComparator p.valBits) e₂ :=
    S.run_unique S p.valBits_pos hp hr hd
  have hit : (SumConstraint.ctor S p lit rhs e₁ true).iterate =
      (SumConstraint.ctor S p lit rhs e₂ true).iterate := by
    rw [sum_ctor_iterate_eq, sum_ctor_iterate_eq]
    exact hrun
  simp only [SumConstraint.create]
  refine ⟨hit, ?_, ?_, ?_⟩
  · show e₁.length = e₂.length
    exact hp.length_eq
  · intro i
    show (SumConstraint.ctor S p lit rhs e₁ true).elements_[i]? =
      (SumConstraint.ctor S p lit rhs e₂ true).elements_[i]?
    rw [← sum_ctor_iterate, ← sum_ctor_iterate, hit]
  · rw [sum_ctor_iterate_eq, sum_ctor_iterate_eq]
    exact (S.run_unique S p.valBits_pos
      (S.perm _ e₁ (sortComparator_strictWeak _)).symm hr hd).symm

/-- C17 (witness): two arrangements of three pairs with the absolute
coefficients 1, 3 and 7. -/
theorem sorted_create_independent_of_input_order_witness :
    List.Perm [((1 : Int), (0 : Nat)), (3, 1), (-7, 2)] [(-7, 2), (1, 0), (3, 1)] ∧
    (SumConstraint.create insertionStdSort lp64 1 0 [(1, 0), (3, 1), (-7, 2)]
      true).object.iterate =
      (SumConstraint.create insertionStdSort lp64 1 0 [(-7, 2), (1, 0), (3, 1)]
        true).object.iterate ∧
    (SumConstraint.create insertionStdSort lp64 1 0 [(1, 0), (3, 1), (-7, 2)]
      true).object.iterate = [(-7, 2), (3, 1), (1, 0)] :=
  ⟨by decide,
    (sorted_create_independent_of_input_order insertionStdSort lp64 1 0
      [(1, 0), (3, 1), (-7, 2)] [(-7, 2), (1, 0), (3, 1)] (by decide) (by decide)
      (by decide)).1,
    by decide⟩

/-- C13: propagation of a sum constraint whose activation literal is true
reports a conflict exactly when the minimum achievable sum of the elements
given to `create` (the lower bound of a variable under a positive coefficient,
the upper bound under a negative one) exceeds `rhs`, for every assignment of
bounds and both values of `sort`; and when it reports a conflict, no
assignment of values within the bounds satisfies the constraint. -/
theorem sum_propagation_conflict_iff (S : StdSort) (p : Target) (lit rhs : Int)
    (elems : CoVarVec) (sort : Bool) (bounds : Bounds) :
    (((SumConstraint.create S p lit rhs elems sort).object.create_state.propagate
        bounds).isConflict = true ↔ rhs < minimumSum bounds elems) ∧
    (((SumConstraint.create S p lit rhs elems sort).object.create_state.propagate
        bounds).isConflict = true →
      ∀ value : Nat → Int,
        (∀ e ∈ elems, (bounds e.2).1 ≤ value e.2 ∧ value e.2 ≤ (bounds e.2).2) →
        rhs < weightedSum value elems) := by
  simp only [SumConstraint.create]
  rw [sum_propagate_isConflict]
  refine ⟨by simp, ?_⟩
  intro hc value hv
  have h1 : rhs < minimumSum bounds elems := by simpa using hc
  have h2 := minimumSum_le_weightedSum bounds value elems hv
  omega

/-- C13 (scenario of the spec): elements `[(3, x), (1, y)]`, `rhs = 5`, `x` and
`y` in `[0, 10]`, literal true: no conflict, `x` is tightened to `[0, 1]` and
`y` to `[0, 5]`. -/
theorem sum_propagation_scenario :
    ((SumConstraint.create insertionStdSort lp64 1 5 [(3, 0), (1, 1)]
      true).object.create_state.propagate (fun _ => (0, 10))).isConflict = false ∧
    ((SumConstraint.create insertionStdSort lp64 1 5 [(3, 0), (1, 1)]
      true).object.create_state.propagate (fun _ => (0, 10))).boundsOf 0 = some (0, 1) ∧
    ((SumConstraint.create insertionStdSort lp64 1 5 [(3, 0), (1, 1)]
      true).object.create_state.propagate (fun _ => (0, 10))).boundsOf 1 = some (0, 5) :=
  ⟨Bool.eq_false_iff.mpr (fun hc =>
      absurd ((sum_propagation_conflict_iff insertionStdSort lp64 1 5 [(3, 0), (1, 1)] true
        (fun _ => (0, 10))).1.mp hc) (by decide)),
    by decide, by decide⟩

/-- C18: the block is sized for the header plus one pair per element.  For
every element count `n` for which `sizeof(header) + n * sizeof(pair)` does not
exceed the largest `size_t`, the size that `create` requests is exactly that
sum, the trailing region has room for exactly `n` pairs, the copy fills `n`
cells, each of which ends inside the block, and `size()`, the end of the range
that the sort touches, does not exceed `n`; for `SumConstraint` and for
`MinimizeConstraint`. -/
theorem create_allocation_is_exact (S : StdSort) (p : Target) (lit rhs adjust : Int)
    (elems : CoVarVec) (sort : Bool) (hpair : 0 < p.sizeofPair) :
    (p.sizeofSum + elems.length * p.sizeofPair ≤ 2 ^ p.sizeBits - 1 →
      (SumConstraint.create S p lit rhs elems sort).bytes =
        p.sizeofSum + elems.length * p.sizeofPair ∧
      trailingCapacity (SumConstraint.create S p lit rhs elems sort).bytes
        p.sizeofSum p.sizeofPair = elems.length ∧
      (SumConstraint.create S p lit rhs elems sort).object.elements_.length = elems.length ∧
      (∀ i, i < elems.length →
        p.sizeofSum + (i + 1) * p.sizeofPair ≤
          (SumConstraint.create S p lit rhs elems sort).bytes) ∧
      (SumConstraint.create S p lit rhs elems sort).object.size ≤
        trailingCapacity (SumConstraint.create S p lit rhs elems sort).bytes
          p.sizeofSum p.sizeofPair) ∧
    (p.sizeofMinimize + elems.length * p.sizeofPair ≤ 2 ^ p.sizeBits - 1 →
      (MinimizeConstraint.create S p adjust elems sort).bytes =
        p.sizeofMinimize + elems.length * p.sizeofPair ∧
      trailingCapacity (MinimizeConstraint.create S p adjust elems sort).bytes
        p.sizeofMinimize p.sizeofPair = elems.length ∧
      (MinimizeConstraint.create S p adjust elems sort).object.elements_.length =
        elems.length ∧
      (∀ i, i < elems.length →
        p.sizeofMinimize + (i + 1) * p.sizeofPair ≤
          (MinimizeConstraint.create S p adjust elems sort).bytes) ∧
      (MinimizeConstraint.create S p adjust elems sort).object.size ≤
        trailingCapacity (MinimizeConstraint.create S p adjust elems sort).bytes
          p.sizeofMinimize p.sizeofPair) := by
  have hpos : 0 < 2 ^ p.sizeBits := Nat.two_pow_pos p.sizeBits
  have hcap : ∀ H : Nat, trailingCapacity (H + elems.length * p.sizeofPair) H p.sizeofPair =
      elems.length := by
    intro H
    unfold trailingCapacity
    rw [Nat.add_sub_cancel_left]
    exact Nat.mul_div_cancel _ hpair
  have hcell : ∀ H i : Nat, i < elems.length →
      H + (i + 1) * p.sizeofPair ≤ H + elems.length * p.sizeofPair := by
    intro H i hi
    exact Nat.add_le_add_left (Nat.mul_le_mul_right _ hi) H
  constructor
  · intro h
    have hb : (SumConstraint.create S p lit rhs elems sort).bytes =
        p.sizeofSum + elems.length * p.sizeofPair :=
      Nat.mod_eq_of_lt (by omega)
    rw [hb, hcap]
    refine ⟨rfl, rfl, ?_, hcell _, Nat.le_refl _⟩
    exact (sum_ctor_elements_perm S p lit rhs elems sort).length_eq
  · intro h
    have hb : (MinimizeConstraint.create S p adjust elems sort).bytes =
        p.sizeofMinimize + elems.length * p.sizeofPair :=
      Nat.mod_eq_of_lt (by omega)
    rw [hb, hcap]
    refine ⟨rfl, rfl, ?_, hcell _, ?_⟩
    · exact (minimize_ctor_elements_perm S p adjust elems sort).length_eq
    · exact Nat.mod_le _ _

/-- C18 (witness): three pairs at the 64-bit target: 48 bytes behind a 24-byte
header and 40 bytes behind a 16-byte header, room for three pairs each. -/
theorem create_allocation_is_exact_witness :
    0 < lp64.sizeofPair ∧
    lp64.sizeofSum + [((1 : Int), (1 : Nat)), (3, 0), (-7, 2)].length * lp64.sizeofPair ≤
      2 ^ lp64.sizeBits - 1 ∧
    (SumConstraint.create insertionStdSort lp64 1 5 [(1, 1), (3, 0), (-7, 2)] true).bytes =
      48 ∧
    (MinimizeConstraint.create insertionStdSort lp64 0 [(1, 1), (3, 0), (-7, 2)] true).bytes =
      40 ∧
    trailingCapacity
      (SumConstraint.create insertionStdSort lp64 1 5 [(1, 1), (3, 0), (-7, 2)] true).bytes
      lp64.sizeofSum lp64.sizeofPair = 3 :=
  ⟨by decide, by decide,
    ((create_allocation_is_exact insertionStdSort lp64 1 5 0 [(1, 1), (3, 0), (-7, 2)] true
      (by decide)).1 (by decide)).1,
    ((create_allocation_is_exact insertionStdSort lp64 1 5 0 [(1, 1), (3, 0), (-7, 2)] true
      (by decide)).2 (by decide)).1,
    ((create_allocation_is_exact insertionStdSort lp64 1 5 0 [(1, 1), (3, 0), (-7, 2)] true
      (by decide)).1 (by decide)).2.1⟩

end Clingcon
